import Mathlib

/-!
# Verification of the video_clipper segment-detection and assembly pipeline

Shallow embedding of the repository's core data model and operations.
The repository's frontend (Next.js/TypeScript) is embedded directly from
its sources (`SegmentSelector.toggleSegment`, `handleCombineSelected`,
`script.js handleFileSelect`, `layout.tsx handleProcess`).  The backend
core (Event Detector, Interval Merger, Segment Extractor, Montage
Assembler) is not present in the repository sources (the backend is
documented as boilerplate returning mock responses), so those components
are modelled from the specification, as marked in their doc comments.
Times and energies are represented as rationals.
-/

namespace VideoClipper

/-- An interval of time in seconds, `{start_time, end_time}` (spec §3). -/
structure Interval where
  start_time : ℚ
  end_time : ℚ
deriving DecidableEq, Repr

/-- Sortedness relation on intervals: ordered by `start_time`. -/
def Interval.sortLE (a b : Interval) : Prop := a.start_time ≤ b.start_time

/-- `a` and `b` do not overlap and are separated by a gap of at least `g`. -/
def Interval.gapGE (g : ℚ) (a b : Interval) : Prop :=
  a.end_time + g ≤ b.start_time

/-- Interval bounds are sane and contained in `[0, total]`. -/
def Interval.inBounds (total : ℚ) (i : Interval) : Prop :=
  0 ≤ i.start_time ∧ i.start_time ≤ i.end_time ∧ i.end_time ≤ total

/-- Modelled from the spec: the Interval Merger's run extraction (§4.3),
"walk the mask converting maximal runs of `true` into raw intervals".
Accumulates the current open run as `(first, last)` frame indices;
`i` is the index of the next frame to examine.  The backend source that
implements this walk is missing from the repository. -/
def runsAux : List Bool → ℕ → Option (ℕ × ℕ) → List (ℕ × ℕ)
  | [], _, none => []
  | [], _, some r => [r]
  | true :: rest, i, none => runsAux rest (i + 1) (some (i, i))
  | true :: rest, i, some fl => runsAux rest (i + 1) (some (fl.1, i))
  | false :: rest, i, none => runsAux rest (i + 1) none
  | false :: rest, i, some r => r :: runsAux rest (i + 1) none

/-- Maximal runs of `true` frames in an ActivityMask, as pairs
`(first_true_frame, last_true_frame)` of 0-based frame indices. -/
def maskRuns (mask : List Bool) : List (ℕ × ℕ) :=
  runsAux mask 0 none

/-- Modelled from the spec: raw intervals
`[first_true_frame_start, last_true_frame_end]` (§4.3), with frame `k`
spanning `[k*d, (k+1)*d)` for frame duration `d`. -/
def rawIntervals (mask : List Bool) (d : ℚ) : List Interval :=
  (maskRuns mask).map (fun r => { start_time := r.1 * d, end_time := (r.2 + 1) * d })

/-- One pass of the merge walk: `cur` is the interval currently being
grown; the next interval is absorbed into it (taking the union) while
`next.start - cur.end < g`, otherwise `cur` is emitted. -/
def mergeAux (g : ℚ) (cur : Interval) : List Interval → List Interval
  | [] => [cur]
  | b :: rest =>
    if b.start_time - cur.end_time < g then
      mergeAux g { start_time := min cur.start_time b.start_time,
                   end_time := max cur.end_time b.end_time } rest
    else
      cur :: mergeAux g b rest

/-- Modelled from the spec: "repeatedly merge consecutive raw intervals
where `next.start - current.end < merge_gap_seconds`, taking the union"
(§4.3).  With `g = 0` this is the overlap re-merge after padding. -/
def mergeWith (g : ℚ) : List Interval → List Interval
  | [] => []
  | a :: rest => mergeAux g a rest

/-- Modelled from the spec: "expand every surviving interval by
`padding_seconds` on each side (clamped to `[0, total_duration]`)" (§4.3). -/
def padInterval (p total : ℚ) (i : Interval) : Interval :=
  { start_time := max 0 (i.start_time - p), end_time := min total (i.end_time + p) }

/-- Modelled from the spec: the padding step of the Interval Merger —
pad each interval (clamped) "and merge again if padding causes new
overlaps" (§4.3). -/
def padAndRemerge (l : List Interval) (p total : ℚ) : List Interval :=
  mergeWith 0 (l.map (padInterval p total))

/-- Modelled from the spec: "Degenerate intervals (duration below a
minimum, e.g. one frame) are dropped before returning" (§4.3), with the
minimum duration taken to be one frame. -/
def dropDegenerate (minDur : ℚ) (l : List Interval) : List Interval :=
  l.filter (fun i => decide (minDur ≤ i.end_time - i.start_time))

/-- Modelled from the spec: the full Interval Merger (§4.3).  The backend
implementation is absent from the repository sources; this follows the
spec's algorithm: runs → raw intervals → gap merge → pad+clamp →
overlap re-merge → drop degenerate intervals. -/
def mergeIntervals (mask : List Bool) (d g p : ℚ) : List Interval :=
  dropDegenerate d
    (padAndRemerge (mergeWith g (rawIntervals mask d)) p (mask.length * d))

/-- Modelled from the spec: the Event Detector (§4.2).  The reference
level is the signal's loudest frame (a 100th-percentile choice of the
spec's "high percentile of energy values"), floored at 0 since energies
are RMS amplitudes; a frame is active when
`energy ≥ reference_level × sensitivity`, the identity being the chosen
monotonic mapping from the 0–1 sensitivity control. -/
def detectActivity (energies : List ℚ) (sensitivity : ℚ) : List Bool :=
  let ref := energies.foldr max 0
  energies.map (fun e => decide (ref * sensitivity ≤ e))

/-- Number of active frames in an ActivityMask. -/
def activeCount (mask : List Bool) : ℕ := mask.count true

section SegmentSelector

/-- State transition of `toggleSegment` in `SegmentSelector`
(frontend source): no-op while a combination is processing, otherwise
flips membership of `filename` in the selected-segments set. -/
def toggleSegment (isProcessing : Bool) (selected : Finset String)
    (filename : String) : Finset String :=
  if isProcessing then selected
  else if filename ∈ selected then selected.erase filename
  else insert filename selected

/-- `handleCombineSelected` in `SegmentSelector` (frontend source):
returns `none` (no API call) when nothing is selected or a combination
is already processing, otherwise passes the selected filenames on. -/
def handleCombineSelected (isProcessing : Bool) (selected : Finset String) :
    Option (Finset String) :=
  if selected.card = 0 ∨ isProcessing then none
  else some selected

end SegmentSelector

section Assembler

/-- Error kinds of the Montage Assembler (spec §7). -/
inductive AssembleError where
  | EmptySelection
  | IncompatibleStreams
deriving DecidableEq, Repr

/-- Modelled from the spec: the Montage Assembler / recombination
entrypoint `combineSegments` (§4.5, and the frontend API client of the
same name).  `store` maps a segment filename to that clip's media
content (abstracted as a list of frames); the assembler concatenates
the listed clips in the given order and fails with `EmptySelection` on
zero inputs.  The backend implementation is absent from the repository
sources. -/
def combineSegments (store : String → List ℕ) (files : List String) :
    Except AssembleError (List (List ℕ)) :=
  if files.isEmpty then .error .EmptySelection
  else .ok (files.map store)

/-- The final montage media stream: the clips flattened in order. -/
def montageStream (clips : List (List ℕ)) : List ℕ := clips.flatten

end Assembler

section Extractor

/-- A materialized segment (spec §3), keeping the fields the claims
need. -/
structure Segment where
  index : ℕ
  start_time : ℚ
  end_time : ℚ
deriving DecidableEq, Repr

/-- Modelled from the spec: the Segment Extractor (§4.4).  `f n i`
extracts interval `i` as segment number `n` (1-based), and may fail
with a per-interval `ExtractionError` (represented by its reason
string).  A failure on one interval does not abort the rest: successes
and failures are accumulated side by side.  The backend implementation
is absent from the repository sources. -/
def extractSegments (f : ℕ → Interval → Except String Segment) :
    List Interval → ℕ → List Segment × List (ℕ × String)
  | [], _ => ([], [])
  | i :: rest, n =>
    let tail := extractSegments f rest (n + 1)
    match f n i with
    | .ok s => (s :: tail.1, tail.2)
    | .error e => (tail.1, (n, e) :: tail.2)

end Extractor

section Pipeline

/-- The shape of a processing response as the frontend consumes it
(`ProcessingResult` in the frontend sources): a `success` flag,
the hit count, and a message. -/
structure MontageResult where
  success : Bool
  hits_detected : ℕ
  message : String
deriving Repr

/-- Modelled from the spec: the end-to-end pipeline result for a given
ActivityMask (§4.5, §8 scenario) — the detected intervals become the
hit count, and a run that finds nothing is still a `success := true`
response.  The backend implementation is absent from the repository
sources. -/
def runPipeline (mask : List Bool) (d g p : ℚ) : MontageResult :=
  let hits := (mergeIntervals mask d g p).length
  { success := true
    hits_detected := hits
    message := if hits = 0 then "no active segments found" else "ok" }

/-- Frontend processing state after a response is handled
(`layout.tsx handleProcess`): exactly one of the result and the error
is populated. -/
structure FrontendState where
  processingResult : Option MontageResult
  processingError : Option String
deriving Repr

/-- `handleProcess` in `layout.tsx` (frontend source), response branch:
`if (result.success) setProcessingResult(...) else setProcessingError(...)`. -/
def handleProcessResponse (resp : MontageResult) : FrontendState :=
  if resp.success then { processingResult := some resp, processingError := none }
  else { processingResult := none, processingError := some resp.message }

end Pipeline

section Upload

/-- `String.startsWith`, over the underlying character list (the
JavaScript `String.prototype.startsWith` used by `script.js`). -/
def strStartsWith (s p : String) : Bool :=
  s.data.take p.data.length == p.data

/-- `String.toLowerCase` of JavaScript, over the character list. -/
def strToLower (s : String) : String :=
  ⟨s.data.map Char.toLower⟩

/-- `String.endsWith`, over the underlying character list (the
JavaScript `String.prototype.endsWith` used by `script.js`). -/
def strEndsWith (s p : String) : Bool :=
  s.data.drop (s.data.length - p.data.length) == p.data

/-- A browser `File` as `script.js` sees it: `name`, `type` (MIME) and
`size` in bytes. -/
structure JsFile where
  name : String
  mime : String
  size : ℕ
deriving DecidableEq, Repr

/-- The UI state `handleFileSelect` mutates in the legacy `script.js`
upload handler. -/
structure UploadState where
  selectedFile : Option JsFile
  controlsShown : Bool
  processBtnEnabled : Bool
deriving DecidableEq, Repr

/-- `handleFileSelect` in the legacy `script.js` (frontend source):
rejects files that are neither `video/*` by MIME type nor named
`*.mav` (case-insensitively), and files larger than 12 GiB; on a
rejected file it returns with the state unchanged, otherwise it selects
the file, shows the controls and enables the process button. -/
def handleFileSelect (st : UploadState) (f : JsFile) : UploadState :=
  if !(strStartsWith f.mime "video/") && !(strEndsWith (strToLower f.name) ".mav") then st
  else if 12 * 1024 * 1024 * 1024 < f.size then st
  else { selectedFile := some f, controlsShown := true, processBtnEnabled := true }

end Upload

section Fixtures

/-- Relation between consecutive runs: both are well formed and they are
separated by at least one inactive frame. -/
def RunStep (r s : ℕ × ℕ) : Prop := r.1 ≤ r.2 ∧ r.2 + 1 < s.1 ∧ s.1 ≤ s.2

instance : IsTrans Interval Interval.sortLE := ⟨fun _ _ _ => le_trans⟩

/-- The ActivityMask of the spec's worked scenario: a 100-frame signal
(0.1 s per frame, 10 s total) in which frames 20–29 and 22–31 are
active — i.e. exactly frames 20–31 are `true`. -/
def c5mask : List Bool :=
  List.replicate 20 false ++ List.replicate 12 true ++ List.replicate 68 false

/-- A concrete always-succeeding extraction function. -/
def okExtract : ℕ → Interval → Except String Segment :=
  fun n i => .ok { index := n, start_time := i.start_time, end_time := i.end_time }

/-- A concrete extraction function that fails on segment number 2 only. -/
def demoExtract : ℕ → Interval → Except String Segment :=
  fun n i =>
    if n = 2 then .error "boom"
    else .ok { index := n, start_time := i.start_time, end_time := i.end_time }

/-- A concrete two-interval list. -/
def demoIntervals : List Interval :=
  [{ start_time := 0, end_time := 1 }, { start_time := 2, end_time := 3 }]

/-- A concrete clip store mapping each filename to a one-frame clip. -/
def demoStore : String → List ℕ := fun s => [s.length]

end Fixtures

section RunLemmas

/-- Invariant of the run-extraction walk: provided the open run (if any)
ends exactly at frame `i - 1`, every produced run `(f, l)` is well formed
(`f ≤ l`), starts no earlier than the open run (or `i`), ends before the
remaining frames run out, and consecutive runs are separated by at least
one inactive frame. -/
lemma runsAux_spec :
    ∀ (m : List Bool) (i : ℕ) (cur : Option (ℕ × ℕ)),
      (∀ fl, cur = some fl → fl.1 ≤ fl.2 ∧ fl.2 + 1 = i) →
      (∀ r ∈ runsAux m i cur,
        cur.elim i Prod.fst ≤ r.1 ∧ r.1 ≤ r.2 ∧ r.2 < i + m.length) ∧
      List.Chain' RunStep (runsAux m i cur) := by
  intro m
  induction m with
  | nil =>
    intro i cur hcur
    cases cur with
    | none => simp [runsAux]
    | some fl =>
      obtain ⟨h1, h2⟩ := hcur fl rfl
      simp only [runsAux, List.mem_singleton, List.chain'_singleton, and_true]
      rintro r rfl
      exact ⟨le_refl _, h1, by omega⟩
  | cons b rest ih =>
    intro i cur hcur
    cases b with
    | false =>
      cases cur with
      | none =>
        have h := ih (i + 1) none (by simp)
        simp only [runsAux]
        refine ⟨fun r hr => ?_, h.2⟩
        have hb := h.1 r hr
        simp only [Option.elim] at hb ⊢
        exact ⟨by omega, hb.2.1, by simpa [Nat.add_assoc, Nat.add_comm 1] using hb.2.2⟩
      | some fl =>
        obtain ⟨hf, hl⟩ := hcur fl rfl
        have h := ih (i + 1) none (by simp)
        simp only [runsAux]
        constructor
        · intro r hr
          rcases List.mem_cons.mp hr with rfl | hr
          · exact ⟨le_refl _, hf, by simp only [List.length_cons]; omega⟩
          · have hb := h.1 r hr
            simp only [Option.elim, List.length_cons] at hb ⊢
            exact ⟨by omega, hb.2.1, by omega⟩
        · refine List.chain'_cons'.mpr ⟨fun s hs => ?_, h.2⟩
          have hb := h.1 s (List.mem_of_mem_head? hs)
          simp only [Option.elim] at hb
          exact ⟨hf, by omega, hb.2.1⟩
    | true =>
      cases cur with
      | none =>
        have h := ih (i + 1) (some (i, i)) (by intro fl hfl; cases hfl; exact ⟨le_refl _, rfl⟩)
        simp only [runsAux]
        refine ⟨fun r hr => ?_, h.2⟩
        have hb := h.1 r hr
        simp only [Option.elim, List.length_cons] at hb ⊢
        exact ⟨by omega, hb.2.1, by omega⟩
      | some fl =>
        obtain ⟨hf, hl⟩ := hcur fl rfl
        have h := ih (i + 1) (some (fl.1, i))
          (by intro gl hgl; cases hgl; exact ⟨by omega, rfl⟩)
        simp only [runsAux]
        refine ⟨fun r hr => ?_, h.2⟩
        have hb := h.1 r hr
        simp only [Option.elim, List.length_cons] at hb ⊢
        exact ⟨by omega, hb.2.1, by omega⟩

/-- Every run of an ActivityMask is well formed and ends within the mask. -/
lemma maskRuns_bounds (m : List Bool) :
    ∀ r ∈ maskRuns m, r.1 ≤ r.2 ∧ r.2 < m.length := by
  intro r hr
  have h := (runsAux_spec m 0 none (by simp)).1 r hr
  exact ⟨h.2.1, by simpa using h.2.2⟩

/-- Consecutive runs of an ActivityMask are separated by at least one
inactive frame. -/
lemma maskRuns_chain (m : List Bool) :
    List.Chain' RunStep (maskRuns m) :=
  (runsAux_spec m 0 none (by simp)).2

/-- A mask with no active frame has no runs. -/
lemma runsAux_all_false :
    ∀ (m : List Bool) (i : ℕ), (∀ b ∈ m, b = false) → runsAux m i none = [] := by
  intro m
  induction m with
  | nil => intro i _; simp [runsAux]
  | cons b rest ih =>
    intro i hm
    have hb : b = false := hm b (by simp)
    subst hb
    simpa [runsAux] using ih (i + 1) (fun c hc => hm c (by simp [hc]))

end RunLemmas

section MergeLemmas

/-- The merge walk preserves any property closed under interval union. -/
lemma mergeAux_forall (g : ℚ) (Q : Interval → Prop)
    (hQ : ∀ a b, Q a → Q b →
      Q { start_time := min a.start_time b.start_time,
          end_time := max a.end_time b.end_time }) :
    ∀ (l : List Interval) (cur : Interval), Q cur → (∀ i ∈ l, Q i) →
      ∀ i ∈ mergeAux g cur l, Q i := by
  intro l
  induction l with
  | nil =>
    intro cur hc _ i hi
    simp only [mergeAux, List.mem_singleton] at hi
    exact hi ▸ hc
  | cons b rest ih =>
    intro cur hc hl i hi
    simp only [mergeAux] at hi
    split at hi
    · exact ih _ (hQ cur b hc (hl b (by simp))) (fun j hj => hl j (by simp [hj])) i hi
    · rcases List.mem_cons.mp hi with rfl | hi
      · exact hc
      · exact ih b (hl b (by simp)) (fun j hj => hl j (by simp [hj])) i hi

/-- On a start-sorted input, the merge walk emits a nonempty list whose
head starts where `cur` starts, stays start-sorted, and puts a gap of at
least `g` between consecutive intervals (consecutive survivors failed
the merge test). -/
lemma mergeAux_spec (g : ℚ) :
    ∀ (l : List Interval) (cur : Interval),
      List.Chain' Interval.sortLE (cur :: l) →
      (mergeAux g cur l).head?.map Interval.start_time = some cur.start_time ∧
      List.Chain' Interval.sortLE (mergeAux g cur l) ∧
      List.Chain' (Interval.gapGE g) (mergeAux g cur l) := by
  intro l
  induction l with
  | nil => intro cur _; simp [mergeAux]
  | cons b rest ih =>
    intro cur hch
    obtain ⟨hcb, hch'⟩ := List.chain'_cons.mp hch
    simp only [mergeAux]
    split
    · have hchain2 : List.Chain' Interval.sortLE
          ({ start_time := min cur.start_time b.start_time,
             end_time := max cur.end_time b.end_time } :: rest) := by
        refine List.chain'_cons'.mpr ⟨fun s hs => ?_, (List.chain'_cons'.mp hch').2⟩
        have hbs := (List.chain'_cons'.mp hch').1 s hs
        exact le_trans (min_le_right _ _) hbs
      have h := ih _ hchain2
      refine ⟨?_, h.2.1, h.2.2⟩
      rw [h.1]
      simp only [Option.some.injEq]
      exact min_eq_left hcb
    · rename_i hcond
      have h := ih b hch'
      have hhead : ∀ s ∈ (mergeAux g b rest).head?, s.start_time = b.start_time := by
        intro s hs
        have := h.1
        rw [Option.mem_def] at hs
        rw [hs] at this
        simpa using this
      refine ⟨by simp, ?_, ?_⟩
      · refine List.chain'_cons'.mpr ⟨fun s hs => ?_, h.2.1⟩
        have := hhead s hs
        unfold Interval.sortLE
        rw [this]
        exact hcb
      · refine List.chain'_cons'.mpr ⟨fun s hs => ?_, h.2.2⟩
        have := hhead s hs
        unfold Interval.gapGE
        rw [this]
        linarith [not_lt.mp hcond]

/-- A list already separated by gaps of at least `g` is left unchanged by
the merge walk. -/
lemma mergeAux_eq_self (g : ℚ) :
    ∀ (l : List Interval) (cur : Interval),
      List.Chain' (Interval.gapGE g) (cur :: l) → mergeAux g cur l = cur :: l := by
  intro l
  induction l with
  | nil => intro cur _; simp [mergeAux]
  | cons b rest ih =>
    intro cur hch
    obtain ⟨hcb, hch'⟩ := List.chain'_cons.mp hch
    have hcond : ¬ (b.start_time - cur.end_time < g) := by
      unfold Interval.gapGE at hcb
      linarith
    simp only [mergeAux, if_neg hcond]
    rw [ih b hch']

/-- `mergeWith` preserves any property closed under interval union. -/
lemma mergeWith_forall (g : ℚ) (Q : Interval → Prop)
    (hQ : ∀ a b, Q a → Q b →
      Q { start_time := min a.start_time b.start_time,
          end_time := max a.end_time b.end_time })
    (l : List Interval) (hl : ∀ i ∈ l, Q i) :
    ∀ i ∈ mergeWith g l, Q i := by
  cases l with
  | nil => simp [mergeWith]
  | cons a rest =>
    exact mergeAux_forall g Q hQ rest a (hl a (by simp))
      (fun j hj => hl j (by simp [hj]))

/-- On a start-sorted input, `mergeWith` stays start-sorted and separates
consecutive output intervals by a gap of at least `g`. -/
lemma mergeWith_spec (g : ℚ) (l : List Interval)
    (hch : List.Chain' Interval.sortLE l) :
    List.Chain' Interval.sortLE (mergeWith g l) ∧
    List.Chain' (Interval.gapGE g) (mergeWith g l) := by
  cases l with
  | nil => simp [mergeWith]
  | cons a rest => exact (mergeAux_spec g rest a hch).2

/-- A list already separated by gaps of at least `g` is unchanged. -/
lemma mergeWith_eq_self (g : ℚ) (l : List Interval)
    (hch : List.Chain' (Interval.gapGE g) l) : mergeWith g l = l := by
  cases l with
  | nil => simp [mergeWith]
  | cons a rest => exact mergeAux_eq_self g rest a hch

/-- From a gap chain, the head is gap-separated from every later element,
provided all elements are well formed and the gap is nonnegative. -/
lemma gapGE_head_all (g : ℚ) (hg : 0 ≤ g) :
    ∀ (t : List Interval) (a b : Interval),
      List.Chain' (Interval.gapGE g) (a :: t) →
      (∀ i ∈ a :: t, i.start_time ≤ i.end_time) →
      b ∈ t → Interval.gapGE g a b := by
  intro t
  induction t with
  | nil => intro a b _ _ hb; simp at hb
  | cons c t' ih =>
    intro a b hch hwf hb
    obtain ⟨hac, hch'⟩ := List.chain'_cons.mp hch
    rcases List.mem_cons.mp hb with rfl | hb
    · exact hac
    · have hcb := ih c b hch' (fun i hi => hwf i (by simp at hi ⊢; tauto)) hb
      have hcwf : c.start_time ≤ c.end_time := hwf c (by simp)
      unfold Interval.gapGE at hac hcb ⊢
      linarith

/-- A gap chain over well-formed intervals is in fact pairwise. -/
lemma chain'_gapGE_pairwise (g : ℚ) (hg : 0 ≤ g) :
    ∀ l : List Interval, List.Chain' (Interval.gapGE g) l →
      (∀ i ∈ l, i.start_time ≤ i.end_time) →
      l.Pairwise (Interval.gapGE g) := by
  intro l
  induction l with
  | nil => simp
  | cons a t ih =>
    intro hch hwf
    refine List.pairwise_cons.mpr ⟨fun b hb => ?_, ?_⟩
    · exact gapGE_head_all g hg t a b hch hwf hb
    · exact ih ((List.chain'_cons'.mp hch).2) (fun i hi => hwf i (by simp [hi]))

end MergeLemmas

section PadLemmas

/-- Raw intervals are start-sorted when the frame duration is
nonnegative. -/
lemma rawIntervals_sorted (m : List Bool) (d : ℚ) (hd : 0 ≤ d) :
    List.Chain' Interval.sortLE (rawIntervals m d) := by
  unfold rawIntervals
  rw [List.chain'_map]
  refine (maskRuns_chain m).imp ?_
  intro r s hrs
  obtain ⟨h1, h2, _⟩ := hrs
  show (r.1 : ℚ) * d ≤ (s.1 : ℚ) * d
  have : (r.1 : ℚ) ≤ (s.1 : ℚ) := by exact_mod_cast by omega
  exact mul_le_mul_of_nonneg_right this hd

/-- Raw intervals are well formed and contained in the total duration. -/
lemma rawIntervals_inBounds (m : List Bool) (d : ℚ) (hd : 0 ≤ d) :
    ∀ i ∈ rawIntervals m d, Interval.inBounds (m.length * d) i := by
  intro i hi
  unfold rawIntervals at hi
  rw [List.mem_map] at hi
  obtain ⟨r, hr, rfl⟩ := hi
  obtain ⟨hrw, hrlen⟩ := maskRuns_bounds m r hr
  refine ⟨mul_nonneg (Nat.cast_nonneg _) hd, ?_, ?_⟩
  · have : (r.1 : ℚ) ≤ (r.2 : ℚ) + 1 := by exact_mod_cast by omega
    exact mul_le_mul_of_nonneg_right this hd
  · have : (r.2 : ℚ) + 1 ≤ (m.length : ℚ) := by exact_mod_cast by omega
    exact mul_le_mul_of_nonneg_right this hd

/-- Containment in `[0, total]` is closed under interval union. -/
lemma inBounds_union (total : ℚ) (a b : Interval)
    (ha : Interval.inBounds total a) (hb : Interval.inBounds total b) :
    Interval.inBounds total { start_time := min a.start_time b.start_time,
                              end_time := max a.end_time b.end_time } := by
  obtain ⟨ha1, ha2, ha3⟩ := ha
  obtain ⟨hb1, hb2, hb3⟩ := hb
  exact ⟨le_min ha1 hb1,
    le_trans (min_le_left _ _) (le_trans ha2 (le_max_left _ _)),
    max_le ha3 hb3⟩

/-- Padding with clamping keeps an interval well formed and inside
`[0, total]`. -/
lemma padInterval_inBounds (p total : ℚ) (hp : 0 ≤ p) (i : Interval)
    (h : Interval.inBounds total i) :
    Interval.inBounds total (padInterval p total i) := by
  obtain ⟨h1, h2, h3⟩ := h
  refine ⟨le_max_left _ _, ?_, min_le_left _ _⟩
  exact max_le (le_min (by linarith) (by linarith))
    (le_min (by linarith) (by linarith))

/-- The padded start is never negative and the padded end never exceeds
`total`, for any interval whatsoever. -/
lemma padInterval_clamped (p total : ℚ) (i : Interval) :
    0 ≤ (padInterval p total i).start_time ∧
    (padInterval p total i).end_time ≤ total :=
  ⟨le_max_left _ _, min_le_left _ _⟩

/-- Padding is monotone in the start time. -/
lemma padInterval_mono (p total : ℚ) (a b : Interval)
    (h : Interval.sortLE a b) :
    Interval.sortLE (padInterval p total a) (padInterval p total b) :=
  max_le_max (le_refl 0) (sub_le_sub_right h p)

/-- Clamping bounds survive union, for any interval list fed to the
re-merge after padding. -/
lemma clamped_union (total : ℚ) (a b : Interval)
    (ha : 0 ≤ a.start_time ∧ a.end_time ≤ total)
    (hb : 0 ≤ b.start_time ∧ b.end_time ≤ total) :
    0 ≤ (min a.start_time b.start_time) ∧ (max a.end_time b.end_time) ≤ total :=
  ⟨le_min ha.1 hb.1, max_le ha.2 hb.2⟩

end PadLemmas

section ClaimC1

/-- C1 (amended): for every ActivityMask, positive frame duration and
settings with `merge_gap_seconds > 0` and `padding_seconds ≥ 0`, the
Interval Merger's output is sorted by start time, pairwise
non-overlapping, and every interval has `end_time > start_time`
(degenerate intervals having been dropped); the gap of at least
`merge_gap_seconds` between consecutive intervals holds whenever
`padding_seconds = 0` (padding can shrink gaps below the merge gap,
which is what the counterexample exhibits). -/
theorem mergeIntervals_invariants (mask : List Bool) (d g p : ℚ)
    (hd : 0 < d) (hg : 0 < g) (hp : 0 ≤ p) :
    (mergeIntervals mask d g p).Pairwise Interval.sortLE ∧
    (mergeIntervals mask d g p).Pairwise (Interval.gapGE 0) ∧
    (∀ i ∈ mergeIntervals mask d g p, i.start_time < i.end_time) ∧
    (p = 0 → (mergeIntervals mask d g p).Pairwise (Interval.gapGE g)) := by
  have hd' : (0 : ℚ) ≤ d := hd.le
  have hraw_s := rawIntervals_sorted mask d hd'
  have hraw_b := rawIntervals_inBounds mask d hd'
  have hm := mergeWith_spec g _ hraw_s
  have hm_b : ∀ i ∈ mergeWith g (rawIntervals mask d),
      Interval.inBounds (mask.length * d) i :=
    mergeWith_forall g _ (inBounds_union _) _ hraw_b
  have hpad_s : List.Chain' Interval.sortLE
      ((mergeWith g (rawIntervals mask d)).map
        (padInterval p (mask.length * d))) := by
    rw [List.chain'_map]
    exact hm.1.imp (padInterval_mono p _)
  have hpad_b : ∀ i ∈ (mergeWith g (rawIntervals mask d)).map
      (padInterval p (mask.length * d)),
      Interval.inBounds (mask.length * d) i := by
    intro i hi
    rw [List.mem_map] at hi
    obtain ⟨j, hj, rfl⟩ := hi
    exact padInterval_inBounds p _ hp j (hm_b j hj)
  have hr := mergeWith_spec 0 _ hpad_s
  have hr_b : ∀ i ∈ padAndRemerge (mergeWith g (rawIntervals mask d)) p
      (mask.length * d), Interval.inBounds (mask.length * d) i :=
    mergeWith_forall 0 _ (inBounds_union _) _ hpad_b
  have hwf : ∀ i ∈ padAndRemerge (mergeWith g (rawIntervals mask d)) p
      (mask.length * d), i.start_time ≤ i.end_time :=
    fun i hi => (hr_b i hi).2.1
  have hout : mergeIntervals mask d g p =
      (padAndRemerge (mergeWith g (rawIntervals mask d)) p
        (mask.length * d)).filter
        (fun i => decide (d ≤ i.end_time - i.start_time)) := rfl
  have hsub := List.filter_sublist
    (l := padAndRemerge (mergeWith g (rawIntervals mask d)) p
      (mask.length * d))
    (p := fun i => decide (d ≤ i.end_time - i.start_time))
  refine ⟨?_, ?_, ?_, ?_⟩
  · rw [hout]
    exact (List.chain'_iff_pairwise.mp hr.1).sublist hsub
  · rw [hout]
    exact (chain'_gapGE_pairwise 0 le_rfl _ hr.2 hwf).sublist hsub
  · intro i hi
    rw [hout, List.mem_filter] at hi
    have := of_decide_eq_true hi.2
    linarith
  · intro hp0
    subst hp0
    have hpad_id : (mergeWith g (rawIntervals mask d)).map
        (padInterval 0 (mask.length * d)) =
        mergeWith g (rawIntervals mask d) := by
      have heq : ∀ i ∈ mergeWith g (rawIntervals mask d),
          padInterval 0 (mask.length * d) i = i := by
        intro i hi
        obtain ⟨h1, h2, h3⟩ := hm_b i hi
        unfold padInterval
        rw [sub_zero, add_zero, max_eq_right h1, min_eq_right h3]
      rw [List.map_congr_left heq]
      exact List.map_id _
    have hre_id : padAndRemerge (mergeWith g (rawIntervals mask d)) 0
        (mask.length * d) = mergeWith g (rawIntervals mask d) := by
      unfold padAndRemerge
      rw [hpad_id]
      exact mergeWith_eq_self 0 _ (hm.2.imp (fun a b hab => by
        unfold Interval.gapGE at hab ⊢
        linarith))
    have hmwf : ∀ i ∈ mergeWith g (rawIntervals mask d),
        i.start_time ≤ i.end_time := fun i hi => (hm_b i hi).2.1
    rw [hout, hre_id]
    exact (chain'_gapGE_pairwise g hg.le _ hm.2 hmwf).sublist
      (List.filter_sublist _)

/-- C1 witness: the invariants at the one-frame mask with `d = g = 1`,
`p = 0`. -/
theorem mergeIntervals_invariants_witness :
    (mergeIntervals [true] 1 1 0).Pairwise Interval.sortLE ∧
    (mergeIntervals [true] 1 1 0).Pairwise (Interval.gapGE 0) ∧
    (∀ i ∈ mergeIntervals [true] 1 1 0, i.start_time < i.end_time) ∧
    ((0 : ℚ) = 0 → (mergeIntervals [true] 1 1 0).Pairwise (Interval.gapGE 1)) :=
  mergeIntervals_invariants [true] 1 1 0 (by norm_num) (by norm_num) (by norm_num)

/-- C1 counterexample: with padding `p = 1 > 0` the merger's output can
contain consecutive intervals whose gap (here 1) is below
`merge_gap_seconds` (here 3), refuting the claim's gap clause for
arbitrary `padding_seconds ≥ 0`: mask `[T,F,F,F,T]`, `d = 1`, `g = 3`,
`p = 1` yields `[0,2]` and `[3,5]`. -/
theorem mergeIntervals_gap_claim_false :
    (0 : ℚ) < 1 ∧ (0 : ℚ) < 3 ∧ (0 : ℚ) ≤ 1 ∧
    mergeIntervals [true, false, false, false, true] 1 3 1 =
      [{ start_time := 0, end_time := 2 }, { start_time := 3, end_time := 5 }] ∧
    ¬ Interval.gapGE 3 { start_time := 0, end_time := 2 }
        { start_time := 3, end_time := 5 } := by
  refine ⟨by norm_num, by norm_num, by norm_num, ?_, ?_⟩
  · norm_num [mergeIntervals, dropDegenerate, padAndRemerge, rawIntervals,
      maskRuns, runsAux, mergeAux, mergeWith, padInterval, List.filter]
  · unfold Interval.gapGE
    norm_num

end ClaimC1

section ClaimC4

/-- C4: for every interval list, total duration and
`padding_seconds ≥ 0`, the padding step clamps every produced interval
to `[0, total_duration]` — no output interval has `start_time < 0` or
`end_time > total_duration` — and (on a start-sorted list, which is what
the merger feeds it) intervals that overlap after padding are merged
again, so consecutive outputs never overlap. -/
theorem padAndRemerge_clamped (l : List Interval) (p total : ℚ)
    (_hp : 0 ≤ p) :
    (∀ i ∈ padAndRemerge l p total,
      0 ≤ i.start_time ∧ i.end_time ≤ total) ∧
    (List.Chain' Interval.sortLE l →
      List.Chain' (Interval.gapGE 0) (padAndRemerge l p total)) := by
  constructor
  · intro i hi
    unfold padAndRemerge at hi
    refine mergeWith_forall 0
      (fun j => 0 ≤ j.start_time ∧ j.end_time ≤ total)
      (fun a b ha hb => clamped_union total a b ha hb) _ ?_ i hi
    intro j hj
    rw [List.mem_map] at hj
    obtain ⟨k, _, rfl⟩ := hj
    exact padInterval_clamped p total k
  · intro hsort
    unfold padAndRemerge
    refine (mergeWith_spec 0 _ ?_).2
    rw [List.chain'_map]
    exact hsort.imp (padInterval_mono p total)

/-- C4 witness: padding `[-1, 20]` by 2 against a 10-second total stays
inside `[0, 10]` and the (sorted, single-element) list stays
non-overlapping. -/
theorem padAndRemerge_clamped_witness :
    (∀ i ∈ padAndRemerge [{ start_time := -1, end_time := 20 }] 2 10,
      0 ≤ i.start_time ∧ i.end_time ≤ 10) ∧
    (List.Chain' Interval.sortLE [{ start_time := -1, end_time := 20 }] →
      List.Chain' (Interval.gapGE 0)
        (padAndRemerge [{ start_time := -1, end_time := 20 }] 2 10)) :=
  padAndRemerge_clamped [{ start_time := -1, end_time := 20 }] 2 10
    (by norm_num)

end ClaimC4

section ClaimC5

set_option maxRecDepth 4000 in
/-- C5 counterexample: under the spec's own raw-interval convention
(`[first_true_frame_start, last_true_frame_end]`, §4.3), the active
frames 20–31 span `[2.0, 3.2)`, so the merger returns end time 3.2, not
the claimed 3.1, and the padded result ends at 4.2, not 4.1. -/
theorem scenario_claim_false :
    mergeIntervals c5mask (1/10) (1/2) 0 ≠
      [{ start_time := 2, end_time := 31/10 }] ∧
    mergeIntervals c5mask (1/10) (1/2) 1 ≠
      [{ start_time := 1, end_time := 41/10 }] := by
  have h0 : mergeIntervals c5mask (1/10) (1/2) 0 =
      [{ start_time := 2, end_time := 16/5 }] := by
    norm_num [c5mask, mergeIntervals, dropDegenerate, padAndRemerge,
      rawIntervals, maskRuns, runsAux, mergeAux, mergeWith, padInterval,
      List.filter, List.replicate]
  have h1 : mergeIntervals c5mask (1/10) (1/2) 1 =
      [{ start_time := 1, end_time := 21/5 }] := by
    norm_num [c5mask, mergeIntervals, dropDegenerate, padAndRemerge,
      rawIntervals, maskRuns, runsAux, mergeAux, mergeWith, padInterval,
      List.filter, List.replicate]
  constructor
  · rw [h0]
    simp only [ne_eq, List.cons.injEq, and_true, Interval.mk.injEq, not_and]
    intro _
    norm_num
  · rw [h1]
    simp only [ne_eq, List.cons.injEq, and_true, Interval.mk.injEq, not_and]
    intro _
    norm_num

set_option maxRecDepth 4000 in
/-- C5 (amended): for the scenario's mask (frames 20–31 active on a
100-frame, 0.1 s-per-frame signal), the merger with
`merge_gap_seconds = 0.5` yields the single interval `[2.0, 3.2]`, and
additionally applying `padding_seconds = 1.0` yields `[1.0, 4.2]`. -/
theorem scenario_amended :
    mergeIntervals c5mask (1/10) (1/2) 0 =
      [{ start_time := 2, end_time := 16/5 }] ∧
    mergeIntervals c5mask (1/10) (1/2) 1 =
      [{ start_time := 1, end_time := 21/5 }] := by
  constructor
  · norm_num [c5mask, mergeIntervals, dropDegenerate, padAndRemerge,
      rawIntervals, maskRuns, runsAux, mergeAux, mergeWith, padInterval,
      List.filter, List.replicate]
  · norm_num [c5mask, mergeIntervals, dropDegenerate, padAndRemerge,
      rawIntervals, maskRuns, runsAux, mergeAux, mergeWith, padInterval,
      List.filter, List.replicate]

end ClaimC5

section ClaimC2

/-- The reference level is never negative (energies are RMS amplitudes,
and the fold is floored at 0). -/
lemma foldr_max_nonneg (l : List ℚ) : 0 ≤ l.foldr max 0 := by
  induction l with
  | nil => simp
  | cons e t ih => exact le_trans ih (le_max_right e _)

/-- Counting `true` in a mapped boolean list counts the satisfying
elements. -/
lemma count_true_map {α : Type} (p : α → Bool) (l : List α) :
    (l.map p).count true = l.countP p := by
  induction l with
  | nil => simp
  | cons a t ih =>
    simp only [List.map_cons, List.count_cons, List.countP_cons, ih]
    cases h : p a <;> simp [h]

/-- C2: for a fixed energy signal, lowering the sensitivity from `s2` to
`s1` (with `0 ≤ s1 < s2 ≤ 1`) never decreases the number of active
frames the Event Detector marks. -/
theorem detectActivity_monotone (energies : List ℚ) (s1 s2 : ℚ)
    (_h0 : 0 ≤ s1) (h12 : s1 < s2) (_h1 : s2 ≤ 1) :
    activeCount (detectActivity energies s2) ≤
      activeCount (detectActivity energies s1) := by
  simp only [activeCount, detectActivity]
  rw [count_true_map, count_true_map]
  refine List.countP_mono_left ?_
  intro e _ he
  have href := foldr_max_nonneg energies
  have h2 := of_decide_eq_true he
  refine decide_eq_true ?_
  have hmul : (energies.foldr max 0) * s1 ≤ (energies.foldr max 0) * s2 :=
    mul_le_mul_of_nonneg_left h12.le href
  linarith

/-- C2 witness: on the signal `[1, 2, 3, 4]`, sensitivity 0.9 marks no
more frames than sensitivity 0.5. -/
theorem detectActivity_monotone_witness :
    activeCount (detectActivity [1, 2, 3, 4] (9/10)) ≤
      activeCount (detectActivity [1, 2, 3, 4] (1/2)) :=
  detectActivity_monotone [1, 2, 3, 4] (1/2) (9/10)
    (by norm_num) (by norm_num) (by norm_num)

end ClaimC2

section ClaimC3

/-- C3: an ActivityMask with no `true` frame makes the Interval Merger
return the empty list, the Segment Extractor produce zero segments (and
zero failures), and the pipeline report `success := true` with
`hits_detected = 0`; the frontend handler then populates the result
side, not the error side, so the caller can tell it from a failure. -/
theorem pipeline_empty_mask (mask : List Bool) (d g p : ℚ)
    (f : ℕ → Interval → Except String Segment)
    (h : ∀ b ∈ mask, b = false) :
    mergeIntervals mask d g p = [] ∧
    extractSegments f (mergeIntervals mask d g p) 1 = ([], []) ∧
    (runPipeline mask d g p).success = true ∧
    (runPipeline mask d g p).hits_detected = 0 ∧
    handleProcessResponse (runPipeline mask d g p) =
      { processingResult := some (runPipeline mask d g p),
        processingError := none } := by
  have hruns : maskRuns mask = [] := runsAux_all_false mask 0 h
  have hmerge : mergeIntervals mask d g p = [] := by
    unfold mergeIntervals padAndRemerge rawIntervals
    rw [hruns]
    simp [mergeWith, dropDegenerate]
  refine ⟨hmerge, by rw [hmerge]; rfl, rfl, ?_, ?_⟩
  · simp only [runPipeline, hmerge, List.length_nil]
  · simp [handleProcessResponse, runPipeline]

/-- C3 witness: the two-frame all-inactive mask. -/
theorem pipeline_empty_mask_witness :
    mergeIntervals [false, false] 1 1 0 = [] ∧
    extractSegments okExtract (mergeIntervals [false, false] 1 1 0) 1 = ([], []) ∧
    (runPipeline [false, false] 1 1 0).success = true ∧
    (runPipeline [false, false] 1 1 0).hits_detected = 0 ∧
    handleProcessResponse (runPipeline [false, false] 1 1 0) =
      { processingResult := some (runPipeline [false, false] 1 1 0),
        processingError := none } :=
  pipeline_empty_mask [false, false] 1 1 0 okExtract (by decide)

end ClaimC3

section ClaimC6

/-- C6: the Montage Assembler concatenates exactly the given clips in
exactly the given order (its output is the ordered image of the input
list under the clip store), and for two permutations of the same
segment set the outputs are permutations of each other — only the clip
order differs, never the per-clip content. -/
theorem combineSegments_order (store : String → List ℕ) (l1 l2 : List String)
    (h1 : l1 ≠ []) (hperm : l1.Perm l2) :
    combineSegments store l1 = .ok (l1.map store) ∧
    combineSegments store l2 = .ok (l2.map store) ∧
    (l1.map store).Perm (l2.map store) := by
  have h2 : l2 ≠ [] := by
    intro he
    subst he
    exact h1 hperm.eq_nil
  refine ⟨?_, ?_, hperm.map store⟩
  · simp [combineSegments, h1]
  · simp [combineSegments, h2]

/-- C6 witness: `[A, B, C]` versus `[C, A, B]` with a store mapping each
filename to a one-element clip. -/
theorem combineSegments_order_witness :
    combineSegments (fun s => [s.length]) ["A", "BB", "CCC"] =
      .ok (["A", "BB", "CCC"].map (fun s => [s.length])) ∧
    combineSegments (fun s => [s.length]) ["CCC", "A", "BB"] =
      .ok (["CCC", "A", "BB"].map (fun s => [s.length])) ∧
    (["A", "BB", "CCC"].map (fun s => [s.length])).Perm
      (["CCC", "A", "BB"].map (fun s => [s.length])) :=
  combineSegments_order (fun s => [s.length]) ["A", "BB", "CCC"]
    ["CCC", "A", "BB"] (by simp) (by decide)

end ClaimC6

section ClaimC7

/-- C7: the Montage Assembler (recombination entrypoint included) fails
with `EmptySelection` on an empty segment list and never produces an
output for zero inputs; the frontend guard `handleCombineSelected`
likewise refuses to fire the request when no segment is selected. -/
theorem combineSegments_empty (store : String → List ℕ) (b : Bool) :
    combineSegments store [] = .error .EmptySelection ∧
    (∀ out, combineSegments store [] ≠ .ok out) ∧
    handleCombineSelected b ∅ = none := by
  refine ⟨rfl, ?_, ?_⟩
  · intro out hout
    simp [combineSegments] at hout
  · simp [handleCombineSelected]

/-- C7 witness: the empty selection with a concrete store. -/
theorem combineSegments_empty_witness :
    combineSegments (fun _ => []) [] = .error .EmptySelection ∧
    (∀ out, combineSegments (fun _ => ([] : List ℕ)) [] ≠ .ok out) ∧
    handleCombineSelected false ∅ = none :=
  combineSegments_empty (fun _ => []) false

end ClaimC7

section ClaimC8

/-- Behaviour of the extractor walk from an arbitrary 1-based start
index: nothing is dropped (successes and failures add up to the input
length), every interval whose extraction succeeds contributes a
segment, and every per-interval failure is reported with its index. -/
lemma extractSegments_spec (f : ℕ → Interval → Except String Segment) :
    ∀ (l : List Interval) (n : ℕ),
      (extractSegments f l n).1.length + (extractSegments f l n).2.length
        = l.length ∧
      ∀ k (hk : k < l.length),
        (∀ s, f (n + k) l[k] = .ok s → s ∈ (extractSegments f l n).1) ∧
        (∀ e, f (n + k) l[k] = .error e → (n + k, e) ∈ (extractSegments f l n).2) := by
  intro l
  induction l with
  | nil =>
    intro n
    refine ⟨by simp [extractSegments], ?_⟩
    intro k hk
    simp at hk
  | cons i rest ih =>
    intro n
    have iht := ih (n + 1)
    cases hf : f n i with
    | ok s =>
      have hres : extractSegments f (i :: rest) n =
          (s :: (extractSegments f rest (n + 1)).1,
           (extractSegments f rest (n + 1)).2) := by
        simp [extractSegments, hf]
      rw [hres]
      refine ⟨by simp only [List.length_cons]; omega, ?_⟩
      intro k hk
      cases k with
      | zero =>
        constructor
        · intro s' hs'
          rw [Nat.add_zero, List.getElem_cons_zero, hf] at hs'
          injection hs' with hs'
          subst hs'
          simp
        · intro e he
          rw [Nat.add_zero, List.getElem_cons_zero, hf] at he
          simp at he
      | succ k' =>
        have hk' : k' < rest.length := by simpa using hk
        have h := (iht.2 k' hk')
        have harith : n + (k' + 1) = (n + 1) + k' := by omega
        constructor
        · intro s' hs'
          rw [harith, List.getElem_cons_succ] at hs'
          exact List.mem_cons_of_mem _ (h.1 s' hs')
        · intro e he
          rw [harith, List.getElem_cons_succ] at he
          rw [harith]
          exact h.2 e he
    | error e0 =>
      have hres : extractSegments f (i :: rest) n =
          ((extractSegments f rest (n + 1)).1,
           (n, e0) :: (extractSegments f rest (n + 1)).2) := by
        simp [extractSegments, hf]
      rw [hres]
      refine ⟨by simp only [List.length_cons]; omega, ?_⟩
      intro k hk
      cases k with
      | zero =>
        constructor
        · intro s' hs'
          rw [Nat.add_zero, List.getElem_cons_zero, hf] at hs'
          simp at hs'
        · intro e he
          rw [Nat.add_zero, List.getElem_cons_zero, hf] at he
          injection he with he
          subst he
          simp
      | succ k' =>
        have hk' : k' < rest.length := by simpa using hk
        have h := (iht.2 k' hk')
        have harith : n + (k' + 1) = (n + 1) + k' := by omega
        constructor
        · intro s' hs'
          rw [harith, List.getElem_cons_succ] at hs'
          exact h.1 s' hs'
        · intro e he
          rw [harith, List.getElem_cons_succ] at he
          rw [harith]
          exact List.mem_cons_of_mem _ (h.2 e he)

/-- C8: with the 1-based numbering of the Segment Extractor, an
extraction error on one interval does not abort the rest — the
successes and the reported failures exactly cover the interval list
(possibly fewer segments than intervals), each successful interval
contributes its segment, and each failing interval is reported with its
index and reason rather than silently dropped. -/
theorem extractSegments_partial (f : ℕ → Interval → Except String Segment)
    (l : List Interval) :
    (extractSegments f l 1).1.length + (extractSegments f l 1).2.length
      = l.length ∧
    ∀ k (hk : k < l.length),
      (∀ s, f (k + 1) l[k] = .ok s → s ∈ (extractSegments f l 1).1) ∧
      (∀ e, f (k + 1) l[k] = .error e → (k + 1, e) ∈ (extractSegments f l 1).2) := by
  have h := extractSegments_spec f l 1
  refine ⟨h.1, fun k hk => ?_⟩
  have h2 := h.2 k hk
  rwa [Nat.add_comm 1 k] at h2

/-- C8 witness: a two-interval list in which the second extraction
fails. -/
theorem extractSegments_partial_witness :
    (extractSegments demoExtract demoIntervals 1).1.length +
      (extractSegments demoExtract demoIntervals 1).2.length
      = demoIntervals.length ∧
    ∀ k (hk : k < demoIntervals.length),
      (∀ s, demoExtract (k + 1) demoIntervals[k] = .ok s →
        s ∈ (extractSegments demoExtract demoIntervals 1).1) ∧
      (∀ e, demoExtract (k + 1) demoIntervals[k] = .error e →
        (k + 1, e) ∈ (extractSegments demoExtract demoIntervals 1).2) :=
  extractSegments_partial demoExtract demoIntervals

end ClaimC8

section ClaimC9

/-- C9: while no combination is processing, toggling a filename twice
restores the selected set, and a single toggle flips exactly that
filename's membership, leaving every other filename's membership
unchanged. -/
theorem toggleSegment_toggle (isProcessing : Bool) (sel : Finset String)
    (fn : String) (h : isProcessing = false) :
    toggleSegment isProcessing (toggleSegment isProcessing sel fn) fn = sel ∧
    (fn ∈ toggleSegment isProcessing sel fn ↔ fn ∉ sel) ∧
    (∀ g, g ≠ fn → (g ∈ toggleSegment isProcessing sel fn ↔ g ∈ sel)) := by
  subst h
  by_cases hfn : fn ∈ sel
  · have h1 : toggleSegment false sel fn = sel.erase fn := by
      simp [toggleSegment, hfn]
    refine ⟨?_, ?_, ?_⟩
    · rw [h1]
      have hnm : fn ∉ sel.erase fn := Finset.not_mem_erase fn sel
      simp [toggleSegment, hnm, Finset.insert_erase hfn]
    · rw [h1]
      simp [Finset.mem_erase, hfn]
    · intro g hg
      rw [h1]
      simp [Finset.mem_erase, hg]
  · have h1 : toggleSegment false sel fn = insert fn sel := by
      simp [toggleSegment, hfn]
    refine ⟨?_, ?_, ?_⟩
    · rw [h1]
      simp [toggleSegment, Finset.mem_insert_self, Finset.erase_insert hfn]
    · rw [h1]
      simp [hfn]
    · intro g hg
      rw [h1]
      simp [Finset.mem_insert, hg]

/-- C9 witness: toggling `"b"` twice on the selection `{"a"}`. -/
theorem toggleSegment_toggle_witness :
    toggleSegment false (toggleSegment false {"a"} "b") "b" = {"a"} ∧
    ("b" ∈ toggleSegment false {"a"} "b" ↔ "b" ∉ ({"a"} : Finset String)) ∧
    (∀ g, g ≠ "b" →
      (g ∈ toggleSegment false {"a"} "b" ↔ g ∈ ({"a"} : Finset String))) :=
  toggleSegment_toggle false {"a"} "b" rfl

end ClaimC9

section ClaimC10

/-- C10: the legacy upload handler returns with the state unchanged —
file not selected, controls not shown, process button not enabled — for
any file that is neither `video/*` by MIME type nor `*.mav` by
(case-insensitive) extension, and likewise for any file over 12 GiB,
the README's "No file size limits" notwithstanding. -/
theorem handleFileSelect_rejects (st : UploadState) (f : JsFile)
    (h : (strStartsWith f.mime "video/" = false ∧
          strEndsWith (strToLower f.name) ".mav" = false)
      ∨ 12 * 1024 * 1024 * 1024 < f.size) :
    handleFileSelect st f = st := by
  unfold handleFileSelect
  rcases h with ⟨h1, h2⟩ | hsize
  · simp [h1, h2]
  · by_cases hc : (!(strStartsWith f.mime "video/") &&
        !(strEndsWith (strToLower f.name) ".mav")) = true
    · rw [if_pos hc]
    · rw [if_neg hc, if_pos hsize]

/-- C10 witness: a 100-byte `text/plain` file is rejected and leaves the
initial state untouched. -/
theorem handleFileSelect_rejects_witness :
    handleFileSelect
      { selectedFile := none, controlsShown := false, processBtnEnabled := false }
      { name := "notes.txt", mime := "text/plain", size := 100 } =
    { selectedFile := none, controlsShown := false, processBtnEnabled := false } :=
  handleFileSelect_rejects _ _ (Or.inl ⟨by decide, by decide⟩)

end ClaimC10

end VideoClipper
